import Mathlib

/-!
# GDeflate tile-stream codec: a shallow embedding

This file embeds the CPU-side GDeflate tile-stream container of
`GDeflate/TileStream.h`, `GDeflate/GDeflateCompress.cpp` and
`GDeflate/GDeflateDecompress.cpp` into Lean and proves properties of the
embedded functions.

Modelling conventions:
* bytes are `Nat` values `< 256`; byte buffers handed in by the caller are
  modelled as `List Nat` (inputs) and as functions `Nat → Nat` (writable
  output buffers, updated pointwise);
* machine integer casts are explicit `% 2 ^ w` operations;
* `size_t` subtraction that cannot underflow on the traced paths is written
  with the wrap form `(a + 2 ^ 64 - b) % 2 ^ 64` where the C code could wrap;
* the external single-tile libdeflate primitive (out of scope for the
  repository, linked as a library) is a parameter: compression is a function
  `ctile : List Nat → List Nat` and decompression a function
  `dtile : List Nat → Nat → Option (List Nat)` (page bytes and output
  capacity in, produced bytes out, `none` on failure);
* the worker-pool dispatch claims each tile index exactly once and tiles are
  mutually independent, so the engine is embedded as a sequential fold over
  tile indices in index order — the per-tile data flow is identical.
-/

namespace GDeflate

/-- Modelled from the spec: `config.h` is absent from the sources; §3 of the
spec fixes the per-tile uncompressed page size `TILE_SIZE = 65536` bytes,
which `config.h` names `kDefaultTileSize`. -/
def kDefaultTileSize : Nat := 65536

/-- Modelled from the spec: `config.h` is absent from the sources; §3 of the
spec fixes the codec identifier `GDEFLATE_ID = 4`, which `config.h` names
`kGDeflateId`. -/
def kGDeflateId : Nat := 4

/-- `TileStream::kMaxTiles = (1 << 16) - 1` (TileStream.h). -/
def kMaxTiles : Nat := (1 <<< 16) - 1

/-- `kMaxWorkers = 31` (GDeflateCompress.cpp / GDeflateDecompress.cpp). -/
def kMaxWorkers : Nat := 31

/-- `kMinTilesPerWorker = 64` (GDeflateCompress.cpp). -/
def kMinTilesPerWorker : Nat := 64

/-- `COMPRESS_SINGLE_THREAD = 0x200` (GDeflate.h). -/
def COMPRESS_SINGLE_THREAD : Nat := 0x200

/-- The 8-byte packed header `struct TileStream` (TileStream.h).
`id` and `magic` are `uint8_t`, `numTiles` is `uint16_t`, and the final
32-bit word is split into the bitfields `tileSizeIdx : 2`,
`lastTileSize : 18`, `reserved1 : 12`. -/
structure TileStream where
  id : Nat
  magic : Nat
  numTiles : Nat
  tileSizeIdx : Nat
  lastTileSize : Nat
  reserved1 : Nat
deriving Repr, DecidableEq

/-- `TileStream::TileStream(size_t uncompressedSize)` (TileStream.h): zeroes
the struct, sets `tileSizeIdx = 1`, `SetCodecId(kGDeflateId)` and
`SetUncompressedSize(uncompressedSize)`.  `SetUncompressedSize` stores
`size / kDefaultTileSize` into the `uint16_t` `numTiles` (truncating cast),
stores `size - numTiles * kDefaultTileSize` into the 18-bit bitfield
`lastTileSize`, then increments `numTiles` when `lastTileSize != 0`
(`uint16_t` wraparound made explicit). -/
def TileStream.encode (uncompressedSize : Nat) : TileStream :=
  let numTiles0 : Nat := (uncompressedSize / kDefaultTileSize) % 2 ^ 16
  let lastTileSize : Nat := (uncompressedSize - numTiles0 * kDefaultTileSize) % 2 ^ 18
  let numTiles : Nat := (numTiles0 + if lastTileSize ≠ 0 then 1 else 0) % 2 ^ 16
  { id := kGDeflateId
    magic := kGDeflateId ^^^ 0xff
    numTiles := numTiles
    tileSizeIdx := 1
    lastTileSize := lastTileSize
    reserved1 := 0 }

/-- `TileStream::IsValid()` (TileStream.h): `id == (magic ^ 0xff)`. -/
def TileStream.IsValid (h : TileStream) : Bool :=
  h.id = h.magic ^^^ 0xff

/-- `TileStream::GetUncompressedSize()` (TileStream.h):
`numTiles * kDefaultTileSize - (lastTileSize == 0 ? 0 : kDefaultTileSize - lastTileSize)`,
with the unsigned subtractions written in explicit wrap form. -/
def TileStream.GetUncompressedSize (h : TileStream) : Nat :=
  (h.numTiles * kDefaultTileSize + 2 ^ 64 -
    (if h.lastTileSize = 0 then 0
     else (kDefaultTileSize + 2 ^ 64 - h.lastTileSize) % 2 ^ 64)) % 2 ^ 64

/-- Little-endian byte image of a `uint32_t` value. -/
def u32le (x : Nat) : List Nat :=
  [x % 256, x / 256 % 256, x / 2 ^ 16 % 256, x / 2 ^ 24 % 256]

/-- The 8 bytes of the packed `TileStream` struct in memory order: `id`,
`magic`, the little-endian `uint16_t` `numTiles`, then the little-endian
32-bit word holding `tileSizeIdx` in bits 0..1, `lastTileSize` in bits 2..19
and `reserved1` in bits 20..31. -/
def TileStream.bytes (h : TileStream) : List Nat :=
  let w : Nat := h.tileSizeIdx % 4 + h.lastTileSize % 2 ^ 18 * 4 + h.reserved1 % 2 ^ 12 * 2 ^ 20
  [h.id % 256, h.magic % 256, h.numTiles % 256, h.numTiles / 256 % 256] ++ u32le w

/-- Read the little-endian `uint32_t` at byte position `pos` of an input
buffer (models a `const uint32_t*` load from a byte pointer). -/
def readU32 (b : List Nat) (pos : Nat) : Nat :=
  b.getD pos 0 + 256 * b.getD (pos + 1) 0 + 2 ^ 16 * b.getD (pos + 2) 0 +
    2 ^ 24 * b.getD (pos + 3) 0

/-- `reinterpret_cast<const TileStream*>(in)` (GDeflateDecompress.cpp):
the packed header read back from the first 8 bytes of the input. -/
def readTileStream (b : List Nat) : TileStream :=
  let w : Nat := readU32 b 4
  { id := b.getD 0 0
    magic := b.getD 1 0
    numTiles := b.getD 2 0 + 256 * b.getD 3 0
    tileSizeIdx := w % 4
    lastTileSize := w / 4 % 2 ^ 18
    reserved1 := w / 2 ^ 20 }

/-- Overwrite the bytes at positions `p, p+1, …` of a buffer with `d`. -/
def writeBytes (f : Nat → Nat) (p : Nat) (d : List Nat) : Nat → Nat :=
  fun i => if p ≤ i ∧ i < p + d.length then d.getD (i - p) 0 else f i

/-- `struct OutputStreamWrapper` (GDeflateCompress.cpp): a destination
pointer of capacity `size` and a cursor `pos`. -/
structure OutputStreamWrapper where
  size : Nat
  buf : Nat → Nat
  pos : Nat

/-- `OutputStreamWrapper::StreamOut` (GDeflateCompress.cpp): when the write
would overrun the capacity it only prints a diagnostic and returns — the
write is skipped and the cursor is left unchanged; otherwise the bytes are
copied at `pos` and the cursor advances. -/
def OutputStreamWrapper.StreamOut (s : OutputStreamWrapper) (d : List Nat) :
    OutputStreamWrapper :=
  if s.pos + d.length > s.size then s
  else { s with buf := writeBytes s.buf s.pos d, pos := s.pos + d.length }

/-- `OutputStreamWrapper::SetPos` (GDeflateCompress.cpp): moves the cursor
when the target is within the capacity; otherwise prints a diagnostic and
leaves the cursor unchanged (its `bool` result is ignored by the caller in
`DoCompress`). -/
def OutputStreamWrapper.SetPos (s : OutputStreamWrapper) (n : Nat) :
    OutputStreamWrapper :=
  if n > s.size then s else { s with pos := n }

/-- The uncompressed bytes of tile `i`: the slice of the input starting at
`i * kDefaultTileSize` of length `min(remaining, kDefaultTileSize)`
(GDeflateCompress.cpp, `TileCompressionJob`). -/
def tileAt (input : List Nat) (i : Nat) : List Nat :=
  (input.drop (i * kDefaultTileSize)).take kDefaultTileSize

/-- The `tilePtrs` vector of `DoCompress` (GDeflateCompress.cpp): the loop
pushes the running `dataPos` (a prefix sum of the compressed tile sizes,
cast to `uint32_t`), then slot 0 is overwritten with the compressed size of
the last tile. -/
def buildTilePtrs (sizes : List Nat) : List Nat :=
  let tilePtrs := (List.range sizes.length).map fun i => (sizes.take i).sum % 2 ^ 32
  tilePtrs.set 0 (sizes.getLastD 0 % 2 ^ 32)

/-- The serialization loop of `DoCompress` (GDeflateCompress.cpp lines
226-233): for each pair of a tile offset (`0` for tile 0, `tilePtrs[i]`
otherwise) and the tile's compressed bytes, `SetPos(dataOffset + tileOffset)`
then `StreamOut` the bytes. -/
def writeTileList (s : OutputStreamWrapper) (dataOffset : Nat)
    (items : List (Nat × List Nat)) : OutputStreamWrapper :=
  items.foldl (fun st it => (st.SetPos (dataOffset + it.1)).StreamOut it.2) s

/-- `DoCompress` (GDeflateCompress.cpp), with the external per-tile
compressor abstracted as `ctile` (the worker-pool claims every tile index
exactly once, so the tile vector holds `ctile` of each input slice).
Returns `none` where the C function returns `false`, and
`some (buffer, *outputSize)` where it returns `true`.  `level` and `flags`
only select the compressor instance and the thread count in the source and
do not otherwise affect the data flow. -/
def DoCompress (ctile : List Nat → List Nat) (level flags : Nat)
    (input : List Nat) (outCap : Nat) (outBuf : Nat → Nat) :
    Option ((Nat → Nat) × Nat) :=
  if input.length = 0 then none
  else if input.length > kDefaultTileSize * kMaxTiles then none
  else
    let numItems : Nat := (input.length + kDefaultTileSize - 1) / kDefaultTileSize
    let tiles : List (List Nat) := (List.range numItems).map fun i => ctile (tileAt input i)
    let tilePtrs : List Nat := buildTilePtrs (tiles.map List.length)
    let uncompressedSize : Nat :=
      let total := tilePtrs.length * kDefaultTileSize
      let tailSize := input.length - (tilePtrs.length - 1) * kDefaultTileSize
      if tailSize < kDefaultTileSize then total - (kDefaultTileSize - tailSize) else total
    let header : TileStream := TileStream.encode uncompressedSize
    let s0 : OutputStreamWrapper := ⟨outCap, outBuf, 0⟩
    let s1 := s0.StreamOut header.bytes
    let s2 := s1.StreamOut ((tilePtrs.map u32le).flatten)
    let dataOffset := s2.pos
    let s3 := writeTileList s2 dataOffset
      ((List.range numItems).map fun i =>
        (if i = 0 then 0 else tilePtrs.getD i 0, tiles.getD i []))
    some (s3.buf, s3.pos)

/-- `Compress` (GDeflateCompress.cpp): forwards to `DoCompress`. -/
def Compress (ctile : List Nat → List Nat) (level flags : Nat)
    (input : List Nat) (outCap : Nat) (outBuf : Nat → Nat) :
    Option ((Nat → Nat) × Nat) :=
  DoCompress ctile level flags input outCap outBuf

/-- `CompressBound` (GDeflateCompress.cpp). -/
def CompressBound (size : Nat) : Nat :=
  let numTiles := max 1 (min kMaxTiles ((size + kDefaultTileSize - 1) / kDefaultTileSize))
  numTiles * (kDefaultTileSize + (4 + 4 * 208 + 4 * 8)) + 8 + 8

/-- `ValidateStream` (GDeflateDecompress.cpp): rejects when
`TileStream::IsValid()` fails or when `id != kGDeflateId`; nothing else is
inspected. -/
def ValidateStream (h : TileStream) : Bool :=
  if h.IsValid = false then false
  else if h.id ≠ kGDeflateId then false
  else true

/-- The `tileOffsets` array of `TileDecompressionJob`
(GDeflateDecompress.cpp): `uint32_t` loads starting right after the 8-byte
header, `tileOffsets[i]` at byte `8 + 4 * i`. -/
def tileOffsetsOf (input : List Nat) (i : Nat) : Nat :=
  readU32 input (8 + 4 * i)

/-- The per-tile compressed span computed by `TileDecompressionJob`
(GDeflateDecompress.cpp lines 84-88): offset `tileOffsets[tileIndex]` for
`tileIndex > 0` and `0` otherwise; byte count
`tileOffsets[tileIndex + 1] - tileOffset` for every tile but the last
(`size_t` subtraction in explicit wrap form) and `tileOffsets[0]` for the
last tile. -/
def tileSpan (tileOffsets : Nat → Nat) (tileIndex numItems : Nat) : Nat × Nat :=
  let tileOffset : Nat := if tileIndex > 0 then tileOffsets tileIndex else 0
  let nbytes : Nat :=
    if tileIndex < numItems - 1 then (tileOffsets (tileIndex + 1) + 2 ^ 64 - tileOffset) % 2 ^ 64
    else tileOffsets 0
  (tileOffset, nbytes)

/-- The tile loop of `TileDecompressionJob` (GDeflateDecompress.cpp), with
the external primitive abstracted as `dtile`: every tile index is claimed
exactly once; the compressed page starts `span.1` bytes into the data region
(`8 + 4 * numItems` bytes into the input) and holds `span.2` bytes; the
produced bytes are written at `tileIndex * kDefaultTileSize` with capacity
`kDefaultTileSize`; the primitive's status is discarded (on failure nothing
is recorded and the loop continues). -/
def decompressTiles (dtile : List Nat → Nat → Option (List Nat))
    (input : List Nat) (numItems : Nat) (out0 : Nat → Nat) : Nat → Nat :=
  (List.range numItems).foldl
    (fun out i =>
      let sp := tileSpan (tileOffsetsOf input) i numItems
      let page := (input.drop (8 + 4 * numItems + sp.1)).take sp.2
      match dtile page kDefaultTileSize with
      | some bytes => writeBytes out (i * kDefaultTileSize) bytes
      | none => out)
    out0

/-- `Decompress` (GDeflateDecompress.cpp), with the external per-tile
primitive abstracted as `dtile` and the caller's output buffer as `out0`.
Returns `none` where the C function returns `false` and `some finalBuffer`
where it returns `true`.  After the argument checks `outputSize` is never
consulted again (the context field is set from
`header->GetUncompressedSize()` and then never read), and `numWorkers` only
sizes the worker pool. -/
def Decompress (dtile : List Nat → Nat → Option (List Nat)) (out0 : Nat → Nat)
    (outputSize : Nat) (input : List Nat) (numWorkers : Nat) :
    Option (Nat → Nat) :=
  if outputSize = 0 ∨ input.length = 0 then none
  else
    let header := readTileStream input
    if ValidateStream header = false then none
    else some (decompressTiles dtile input header.numTiles out0)

/-- Modelled from the spec: the claim's `tile_span(offsets, i, numTiles)`
formula (§4.3), resolved as the claim states it — the last tile (including
tile 0 when `numTiles = 1`) is located at `(offsets[numTiles-1], offsets[0])`,
tile 0 otherwise at `(0, offsets[1])`, and every other tile at
`(offsets[i], offsets[i+1] - offsets[i])`. -/
def tileSpanClaimed (offsets : List Nat) (i numTiles : Nat) : Nat × Nat :=
  if i = numTiles - 1 then (offsets.getD (numTiles - 1) 0, offsets.getD 0 0)
  else if i = 0 then (0, offsets.getD 1 0)
  else (offsets.getD i 0, offsets.getD (i + 1) 0 - offsets.getD i 0)

/-! ## Derived definitions used to state and prove the theorems -/

/-- Total byte length of a list of byte chunks. -/
def sumLens (ts : List (List Nat)) : Nat :=
  (ts.map List.length).sum

/-- Sequential writes of consecutive byte chunks starting at position `q`. -/
def writeSeq (f : Nat → Nat) (q : Nat) : List (List Nat) → (Nat → Nat)
  | [] => f
  | t :: ts => writeSeq (writeBytes f q t) (q + t.length) ts

/-- Pair every chunk with its running start offset, beginning at `acc`. -/
def offsetPairs (acc : Nat) : List (List Nat) → List (Nat × List Nat)
  | [] => []
  | t :: ts => (acc, t) :: offsetPairs (acc + t.length) ts

/-- The tile count `DoCompress` computes:
`(inSize + kDefaultTileSize - 1) / kDefaultTileSize`. -/
def numTilesOf (n : Nat) : Nat :=
  (n + kDefaultTileSize - 1) / kDefaultTileSize

/-- The per-tile compressed payloads `DoCompress` collects into
`context.tiles`. -/
def compressedTiles (ctile : List Nat → List Nat) (input : List Nat) :
    List (List Nat) :=
  (List.range (numTilesOf input.length)).map fun i => ctile (tileAt input i)

/-- The uncompressed tile slices of an input. -/
def inputSlices (input : List Nat) : List (List Nat) :=
  (List.range (numTilesOf input.length)).map (tileAt input)

/-- The total serialized stream size on the success path:
header, index, concatenated payloads. -/
def streamSizeOf (ctile : List Nat → List Nat) (input : List Nat) : Nat :=
  8 + 4 * numTilesOf input.length + sumLens (compressedTiles ctile input)

/-- The output buffer `DoCompress` produces on its success path: header
bytes at 0, index bytes at 8, payload bytes after the index. -/
def compressBuf (ctile : List Nat → List Nat) (input : List Nat)
    (outBuf : Nat → Nat) : Nat → Nat :=
  writeSeq
    (writeBytes (writeBytes outBuf 0 (TileStream.encode input.length).bytes) 8
      (((buildTilePtrs ((compressedTiles ctile input).map List.length)).map
        u32le).flatten))
    (8 + 4 * numTilesOf input.length) (compressedTiles ctile input)

/-- The serialized stream `DoCompress` produces, extracted as a byte list
(the first `*outputSize` bytes of the output buffer). -/
def compressStream (ctile : List Nat → List Nat) (input : List Nat)
    (outBuf : Nat → Nat) : List Nat :=
  (List.range (streamSizeOf ctile input)).map (compressBuf ctile input outBuf)

/-- Read the little-endian `uint32_t` at byte position `pos` of an output
buffer function. -/
def readU32Fun (f : Nat → Nat) (pos : Nat) : Nat :=
  f pos + 256 * f (pos + 1) + 2 ^ 16 * f (pos + 2) + 2 ^ 24 * f (pos + 3)

/-- A degenerate external tile compressor used for concrete runs: the
identity (it trivially satisfies the primitive's interface). -/
def idTile : List Nat → List Nat := fun t => t

/-- A degenerate external tile decompressor inverting `idTile`: returns the
page unchanged when it fits the output capacity. -/
def copyTile : List Nat → Nat → Option (List Nat) :=
  fun page cap => if page.length ≤ cap then some page else none

/-- An external tile decompressor that always reports failure. -/
def failTile : List Nat → Nat → Option (List Nat) := fun _ _ => none

/-- A 13-byte stream whose header passes the magic and id checks but
carries `tileSizeIdx = 2` (fourth word `0x06`): one tile, index `[1]`,
payload `[0x41]`. -/
def c3stream : List Nat := [4, 251, 1, 0, 6, 0, 0, 0, 1, 0, 0, 0, 65]

/-- A 12-byte stream with a well-formed header (one tile,
`lastTileSize = 1`) whose single index word is `0xFFFFFFFF`: the claimed
compressed span of tile 0 is 4294967295 bytes while no payload byte is
present at all. -/
def c4stream : List Nat := [4, 251, 1, 0, 5, 0, 0, 0, 255, 255, 255, 255]

/-- A well-formed 13-byte stream: one tile, `lastTileSize = 1`, index `[1]`,
payload `[0x41]`. -/
def c9stream : List Nat := [4, 251, 1, 0, 5, 0, 0, 0, 1, 0, 0, 0, 65]

/-! ## Byte-buffer and list helper lemmas -/

theorem sumLens_nil : sumLens [] = 0 := rfl

theorem sumLens_cons (t : List Nat) (ts : List (List Nat)) :
    sumLens (t :: ts) = t.length + sumLens ts := rfl

theorem sumLens_append (ts us : List (List Nat)) :
    sumLens (ts ++ us) = sumLens ts + sumLens us := by
  simp [sumLens]

theorem getD_range_map {L p : Nat} (f : Nat → Nat) (hp : p < L) :
    ((List.range L).map f).getD p 0 = f p := by
  rw [List.getD_eq_getElem _ _ (by simpa using hp)]
  simp

theorem range_map_getD (l : List Nat) :
    (List.range l.length).map (fun k => l.getD k 0) = l := by
  induction l with
  | nil => rfl
  | cons a t ih =>
    rw [List.length_cons, List.range_succ_eq_map, List.map_cons, List.map_map]
    simpa [Function.comp_def] using ih

theorem range_map_slice (L a b : Nat) (f : Nat → Nat) (hab : a + b ≤ L) :
    (((List.range L).map f).drop a).take b = (List.range b).map fun k => f (a + k) := by
  apply List.ext_getElem
  · simp
    omega
  · intro i h1 h2
    simp

theorem writeBytes_lt (f : Nat → Nat) (p : Nat) (d : List Nat) (i : Nat)
    (h : i < p) : writeBytes f p d i = f i := by
  simp only [writeBytes]
  rw [if_neg (by omega)]

theorem writeBytes_ge (f : Nat → Nat) (p : Nat) (d : List Nat) (i : Nat)
    (h : p + d.length ≤ i) : writeBytes f p d i = f i := by
  simp only [writeBytes]
  rw [if_neg (by omega)]

theorem writeBytes_getD (f : Nat → Nat) (p : Nat) (d : List Nat) (i : Nat)
    (h1 : p ≤ i) (h2 : i < p + d.length) :
    writeBytes f p d i = d.getD (i - p) 0 := by
  simp only [writeBytes]
  rw [if_pos ⟨h1, h2⟩]

theorem writeSeq_lt (ts : List (List Nat)) (f : Nat → Nat) (q j : Nat)
    (h : j < q) : writeSeq f q ts j = f j := by
  induction ts generalizing f q with
  | nil => rfl
  | cons t ts ih =>
    rw [writeSeq, ih _ _ (by omega), writeBytes_lt _ _ _ _ h]

theorem writeSeq_ge (ts : List (List Nat)) (f : Nat → Nat) (q j : Nat)
    (h : q + sumLens ts ≤ j) : writeSeq f q ts j = f j := by
  induction ts generalizing f q with
  | nil => rfl
  | cons t ts ih =>
    rw [sumLens_cons] at h
    rw [writeSeq, ih _ _ (by omega), writeBytes_ge _ _ _ _ (by omega)]

theorem writeSeq_getD (ts : List (List Nat)) (f : Nat → Nat) (q j : Nat)
    (h1 : q ≤ j) (h2 : j < q + sumLens ts) :
    writeSeq f q ts j = ts.flatten.getD (j - q) 0 := by
  induction ts generalizing f q with
  | nil =>
    rw [sumLens_nil] at h2
    omega
  | cons t ts ih =>
    rw [sumLens_cons] at h2
    rw [writeSeq]
    by_cases hj : j < q + t.length
    · rw [writeSeq_lt _ _ _ _ hj, writeBytes_getD _ _ _ _ h1 hj, List.flatten_cons,
        List.getD_append _ _ _ _ (by omega)]
    · rw [ih _ _ (by omega) (by omega), List.flatten_cons,
        List.getD_append_right _ _ _ _ (by omega)]
      congr 1
      omega

theorem writeSeq_append (ts : List (List Nat)) (t : List Nat) (f : Nat → Nat)
    (q : Nat) :
    writeSeq f q (ts ++ [t]) = writeBytes (writeSeq f q ts) (q + sumLens ts) t := by
  induction ts generalizing f q with
  | nil =>
    rw [List.nil_append, writeSeq, writeSeq, writeSeq, sumLens_nil, Nat.add_zero]
  | cons u ts ih =>
    rw [List.cons_append, writeSeq, ih, writeSeq, sumLens_cons, Nat.add_assoc]

theorem flatten_getD (ts : List (List Nat)) (i k : Nat) (hi : i < ts.length)
    (hk : k < (ts.getD i []).length) :
    ts.flatten.getD (sumLens (ts.take i) + k) 0 = (ts.getD i []).getD k 0 := by
  induction ts generalizing i with
  | nil => simp at hi
  | cons t ts ih =>
    cases i with
    | zero =>
      rw [List.take_zero, sumLens_nil, Nat.zero_add, List.flatten_cons]
      rw [List.getD_cons_zero] at hk ⊢
      rw [List.getD_append _ _ _ _ hk]
    | succ i =>
      rw [List.getD_cons_succ] at hk ⊢
      rw [List.take_succ_cons, sumLens_cons, List.flatten_cons,
        List.getD_append_right _ _ _ _ (by omega)]
      have : t.length + sumLens (ts.take i) + k - t.length = sumLens (ts.take i) + k := by
        omega
      rw [this, ih _ (by simpa using hi) hk]

theorem sumLens_take_le (ts : List (List Nat)) (i : Nat) :
    sumLens (ts.take i) ≤ sumLens ts := by
  conv_rhs => rw [← List.take_append_drop i ts]
  rw [sumLens_append]
  omega

theorem flatten_length (ts : List (List Nat)) : ts.flatten.length = sumLens ts := by
  simp [sumLens]

/-! ## Header lemmas -/

theorem kDefaultTileSize_eq : kDefaultTileSize = 65536 := rfl

theorem kMaxTiles_eq : kMaxTiles = 65535 := rfl

theorem bytes_length (h : TileStream) : h.bytes.length = 8 := rfl

theorem readTileStream_bytes (h : TileStream) (hid : h.id < 256)
    (hmagic : h.magic < 256) (hnt : h.numTiles < 2 ^ 16)
    (htsi : h.tileSizeIdx < 4) (hlts : h.lastTileSize < 2 ^ 18)
    (hres : h.reserved1 < 2 ^ 12) :
    readTileStream h.bytes = h := by
  obtain ⟨id, magic, nt, tsi, lts, res⟩ := h
  simp only [TileStream.bytes, u32le, List.cons_append, List.nil_append,
    readTileStream, readU32] at *
  simp only [List.getD_cons_zero, List.getD_cons_succ, Nat.reduceAdd]
  refine TileStream.mk.injEq .. ▸ ⟨?_, ?_, ?_, ?_, ?_, ?_⟩ <;> omega

theorem encode_id (n : Nat) : (TileStream.encode n).id = 4 := rfl

theorem encode_magic (n : Nat) : (TileStream.encode n).magic = 251 := by
  simp [TileStream.encode, kGDeflateId]

theorem encode_tileSizeIdx (n : Nat) : (TileStream.encode n).tileSizeIdx = 1 := rfl

theorem encode_reserved1 (n : Nat) : (TileStream.encode n).reserved1 = 0 := rfl

theorem encode_numTiles_lt (n : Nat) : (TileStream.encode n).numTiles < 2 ^ 16 := by
  simp only [TileStream.encode]
  omega

theorem encode_lastTileSize_lt (n : Nat) : (TileStream.encode n).lastTileSize < 2 ^ 18 := by
  simp only [TileStream.encode]
  omega

theorem encode_numTiles (n : Nat) (h1 : 0 < n)
    (h2 : n ≤ kDefaultTileSize * kMaxTiles) :
    (TileStream.encode n).numTiles = numTilesOf n := by
  rw [kDefaultTileSize_eq, kMaxTiles_eq] at h2
  simp only [TileStream.encode, numTilesOf, kDefaultTileSize_eq]
  split_ifs <;> omega

theorem encode_lastTileSize (n : Nat) (h2 : n ≤ kDefaultTileSize * kMaxTiles) :
    (TileStream.encode n).lastTileSize = n % kDefaultTileSize := by
  rw [kDefaultTileSize_eq, kMaxTiles_eq] at h2
  simp only [TileStream.encode, kDefaultTileSize_eq]
  omega

theorem encode_GetUncompressedSize (n : Nat) (h1 : 0 < n)
    (h2 : n ≤ kDefaultTileSize * kMaxTiles) :
    (TileStream.encode n).GetUncompressedSize = n := by
  rw [kDefaultTileSize_eq, kMaxTiles_eq] at h2
  simp only [TileStream.encode, TileStream.GetUncompressedSize, kDefaultTileSize_eq]
  split_ifs <;> omega

theorem ValidateStream_encode (n : Nat) : ValidateStream (TileStream.encode n) = true := by
  simp [ValidateStream, TileStream.IsValid, TileStream.encode, kGDeflateId]

/-! ## Index construction lemmas -/

theorem u32le_length (x : Nat) : (u32le x).length = 4 := rfl

theorem u32le_flatten_length (ps : List Nat) :
    ((ps.map u32le).flatten).length = 4 * ps.length := by
  induction ps with
  | nil => rfl
  | cons p ps ih =>
    simp only [List.map_cons, List.flatten_cons, List.length_append, u32le_length, ih,
      List.length_cons]
    omega

theorem u32le_flatten_getD (ps : List Nat) (i k : Nat) (hi : i < ps.length)
    (hk : k < 4) :
    ((ps.map u32le).flatten).getD (4 * i + k) 0 = (u32le (ps.getD i 0)).getD k 0 := by
  induction ps generalizing i with
  | nil => simp at hi
  | cons p ps ih =>
    cases i with
    | zero =>
      simp only [List.map_cons, List.flatten_cons, List.getD_cons_zero, Nat.mul_zero,
        Nat.zero_add]
      rw [List.getD_append _ _ _ _ (by rw [u32le_length]; omega)]
    | succ i =>
      simp only [List.map_cons, List.flatten_cons, List.getD_cons_succ]
      rw [List.getD_append_right _ _ _ _ (by rw [u32le_length]; omega)]
      have : 4 * (i + 1) + k - (u32le p).length = 4 * i + k := by
        rw [u32le_length]; omega
      rw [this, ih _ (by simpa using hi)]

theorem buildTilePtrs_length (sizes : List Nat) :
    (buildTilePtrs sizes).length = sizes.length := by
  simp [buildTilePtrs]

theorem buildTilePtrs_getD_lt (sizes : List Nat) (i : Nat) :
    (buildTilePtrs sizes).getD i 0 < 2 ^ 32 := by
  by_cases hi : i < sizes.length
  · rw [List.getD_eq_getElem _ _ (by rwa [buildTilePtrs_length])]
    simp only [buildTilePtrs]
    rcases Nat.eq_zero_or_pos i with h0 | h0
    · subst h0
      rw [List.getElem_set_self]
      omega
    · rw [List.getElem_set_ne (by omega)]
      simp only [List.getElem_map, List.getElem_range]
      omega
  · rw [List.getD_eq_default _ _ (by rw [buildTilePtrs_length]; omega)]
    omega

theorem buildTilePtrs_getD_zero (sizes : List Nat) (h : sizes ≠ []) :
    (buildTilePtrs sizes).getD 0 0 = sizes.getLastD 0 % 2 ^ 32 := by
  have hlen : 0 < sizes.length := List.length_pos.mpr h
  rw [List.getD_eq_getElem _ _ (by rwa [buildTilePtrs_length])]
  simp only [buildTilePtrs]
  rw [List.getElem_set_self]

theorem buildTilePtrs_getD_pos (sizes : List Nat) (i : Nat) (h1 : 1 ≤ i)
    (h2 : i < sizes.length) :
    (buildTilePtrs sizes).getD i 0 = (sizes.take i).sum % 2 ^ 32 := by
  rw [List.getD_eq_getElem _ _ (by rwa [buildTilePtrs_length])]
  simp only [buildTilePtrs]
  rw [List.getElem_set_ne (by omega)]
  simp only [List.getElem_map, List.getElem_range]

theorem getLastD_eq_getD (l : List Nat) (h : l ≠ []) :
    l.getLastD 0 = l.getD (l.length - 1) 0 := by
  have hlen : 0 < l.length := List.length_pos.mpr h
  rw [List.getLastD_eq_getLast?, List.getLast?_eq_getElem?,
    List.getElem?_eq_getElem (by omega), Option.getD_some,
    List.getD_eq_getElem _ _ (by omega)]

theorem offsetPairs_length (ts : List (List Nat)) (a : Nat) :
    (offsetPairs a ts).length = ts.length := by
  induction ts generalizing a with
  | nil => rfl
  | cons t ts ih =>
    simp [offsetPairs, ih]

theorem offsetPairs_getD (ts : List (List Nat)) (a i : Nat) (hi : i < ts.length) :
    (offsetPairs a ts).getD i (0, []) = (a + sumLens (ts.take i), ts.getD i []) := by
  induction ts generalizing a i with
  | nil => simp at hi
  | cons t ts ih =>
    cases i with
    | zero =>
      simp [offsetPairs, sumLens_nil]
    | succ i =>
      rw [offsetPairs, List.getD_cons_succ, ih _ _ (by simpa using hi),
        List.take_succ_cons, sumLens_cons, List.getD_cons_succ]
      refine Prod.ext ?_ rfl
      simp
      omega

/-! ## Serialization lemmas -/

theorem StreamOut_ok (s : OutputStreamWrapper) (d : List Nat)
    (h : s.pos + d.length ≤ s.size) :
    s.StreamOut d = ⟨s.size, writeBytes s.buf s.pos d, s.pos + d.length⟩ := by
  simp only [OutputStreamWrapper.StreamOut]
  rw [if_neg (by omega)]

theorem SetPos_ok (s : OutputStreamWrapper) (n : Nat) (h : n ≤ s.size) :
    s.SetPos n = ⟨s.size, s.buf, n⟩ := by
  simp only [OutputStreamWrapper.SetPos]
  rw [if_neg (by omega)]

theorem writeTileList_nil (s : OutputStreamWrapper) (d : Nat) :
    writeTileList s d [] = s := rfl

theorem writeTileList_cons (s : OutputStreamWrapper) (d : Nat)
    (p : Nat × List Nat) (items : List (Nat × List Nat)) :
    writeTileList s d (p :: items) =
      writeTileList ((s.SetPos (d + p.1)).StreamOut p.2) d items := rfl

theorem writeTileList_offsetPairs (ts : List (List Nat)) (s : OutputStreamWrapper)
    (d a : Nat) (hfit : d + a + sumLens ts ≤ s.size) :
    writeTileList s d (offsetPairs a ts) =
      ⟨s.size, writeSeq s.buf (d + a) ts,
        if ts.isEmpty then s.pos else d + a + sumLens ts⟩ := by
  induction ts generalizing s a with
  | nil => rfl
  | cons t ts ih =>
    rw [sumLens_cons] at hfit
    rw [offsetPairs, writeTileList_cons]
    rw [SetPos_ok _ _ (by dsimp only; omega)]
    rw [StreamOut_ok _ _ (by dsimp only; omega)]
    dsimp only
    rw [ih _ _ (by dsimp only; omega)]
    dsimp only
    simp only [writeSeq, List.isEmpty_cons, sumLens_cons, OutputStreamWrapper.mk.injEq]
    refine ⟨trivial, by rw [Nat.add_assoc], ?_⟩
    by_cases hts : ts.isEmpty
    · have hts' : ts = [] := List.isEmpty_iff.mp hts
      subst hts'
      simp [sumLens_nil, Nat.add_assoc]
    · rw [if_neg (by simpa using hts), if_neg (by simp)]
      omega

theorem compressedTiles_length (ctile : List Nat → List Nat) (input : List Nat) :
    (compressedTiles ctile input).length = numTilesOf input.length := by
  simp [compressedTiles]

theorem compressedTiles_getD (ctile : List Nat → List Nat) (input : List Nat)
    (i : Nat) (h : i < numTilesOf input.length) :
    (compressedTiles ctile input).getD i [] = ctile (tileAt input i) := by
  rw [compressedTiles, List.getD_eq_getElem _ _ (by simpa using h)]
  simp

theorem numTilesOf_pos (n : Nat) (h : 0 < n) : 1 ≤ numTilesOf n := by
  simp only [numTilesOf, kDefaultTileSize_eq]
  omega

theorem uncompSize_eq (n : Nat) (h1 : 0 < n) (h2 : n ≤ kDefaultTileSize * kMaxTiles) :
    (if n - (numTilesOf n - 1) * kDefaultTileSize < kDefaultTileSize then
        numTilesOf n * kDefaultTileSize -
          (kDefaultTileSize - (n - (numTilesOf n - 1) * kDefaultTileSize))
      else numTilesOf n * kDefaultTileSize) = n := by
  rw [kDefaultTileSize_eq, kMaxTiles_eq] at h2
  simp only [numTilesOf, kDefaultTileSize_eq]
  split_ifs <;> omega

theorem items_offsetPairs (ts : List (List Nat)) (N : Nat) (hN : N = ts.length)
    (h32 : sumLens ts < 2 ^ 32) :
    ((List.range N).map fun i =>
        (if i = 0 then 0 else (buildTilePtrs (ts.map List.length)).getD i 0,
          ts.getD i [])) =
      offsetPairs 0 ts := by
  subst hN
  apply List.ext_getElem
  · simp [offsetPairs_length]
  · intro i hi1 hi2
    have hi : i < ts.length := by simpa using hi1
    rw [List.getElem_map, List.getElem_range,
      ← List.getD_eq_getElem _ (0, ([] : List Nat)) hi2,
      offsetPairs_getD _ _ _ (by simpa [offsetPairs_length] using hi)]
    refine Prod.ext ?_ rfl
    dsimp only
    rcases Nat.eq_zero_or_pos i with h0 | h0
    · subst h0
      simp [sumLens_nil]
    · rw [if_neg (by omega),
        buildTilePtrs_getD_pos _ _ h0 (by simpa using hi),
        ← List.map_take]
      have hle : sumLens (ts.take i) ≤ sumLens ts := sumLens_take_le ts i
      rw [show ((ts.take i).map List.length).sum = sumLens (ts.take i) from rfl,
        Nat.mod_eq_of_lt (by omega), Nat.zero_add]

theorem DoCompress_run (ctile : List Nat → List Nat) (level flags : Nat)
    (input : List Nat) (outCap : Nat) (outBuf : Nat → Nat)
    (h1 : 0 < input.length) (h2 : input.length ≤ kDefaultTileSize * kMaxTiles)
    (h32 : sumLens (compressedTiles ctile input) < 2 ^ 32)
    (hcap : streamSizeOf ctile input ≤ outCap) :
    DoCompress ctile level flags input outCap outBuf =
      some (writeSeq
          (writeBytes (writeBytes outBuf 0 (TileStream.encode input.length).bytes) 8
            (((buildTilePtrs ((compressedTiles ctile input).map List.length)).map
              u32le).flatten))
          (8 + 4 * numTilesOf input.length) (compressedTiles ctile input),
        streamSizeOf ctile input) := by
  have hNpos := numTilesOf_pos _ h1
  have hcap' : 8 + 4 * numTilesOf input.length + sumLens (compressedTiles ctile input) ≤
      outCap := hcap
  unfold DoCompress
  rw [if_neg (by omega), if_neg (Nat.not_lt.mpr h2)]
  dsimp only
  rw [show (input.length + kDefaultTileSize - 1) / kDefaultTileSize =
        numTilesOf input.length from rfl]
  rw [show (List.range (numTilesOf input.length)).map (fun i => ctile (tileAt input i)) =
        compressedTiles ctile input from rfl]
  have hPlen : (buildTilePtrs ((compressedTiles ctile input).map List.length)).length =
      numTilesOf input.length := by
    rw [buildTilePtrs_length, List.length_map, compressedTiles_length]
  rw [hPlen, uncompSize_eq _ h1 h2]
  have e1 : (OutputStreamWrapper.mk outCap outBuf 0).StreamOut
      (TileStream.encode input.length).bytes =
      ⟨outCap, writeBytes outBuf 0 (TileStream.encode input.length).bytes, 8⟩ := by
    simp only [OutputStreamWrapper.StreamOut, bytes_length, Nat.zero_add]
    rw [if_neg (by omega)]
  rw [e1]
  have e2 : (OutputStreamWrapper.mk outCap
        (writeBytes outBuf 0 (TileStream.encode input.length).bytes) 8).StreamOut
      (((buildTilePtrs ((compressedTiles ctile input).map List.length)).map
        u32le).flatten) =
      ⟨outCap,
        writeBytes (writeBytes outBuf 0 (TileStream.encode input.length).bytes) 8
          (((buildTilePtrs ((compressedTiles ctile input).map List.length)).map
            u32le).flatten),
        8 + 4 * numTilesOf input.length⟩ := by
    simp only [OutputStreamWrapper.StreamOut, u32le_flatten_length, hPlen]
    rw [if_neg (by omega)]
  rw [e2]
  dsimp only
  rw [items_offsetPairs (compressedTiles ctile input) _ (compressedTiles_length _ _).symm h32]
  rw [writeTileList_offsetPairs _ _ _ _ (by dsimp only; omega)]
  dsimp only
  have hne : (compressedTiles ctile input).isEmpty = false := by
    rw [List.isEmpty_eq_false_iff_exists_mem]
    have : 0 < (compressedTiles ctile input).length := by
      rw [compressedTiles_length]
      omega
    exact ⟨_, List.getElem_mem this⟩
  rw [hne]
  simp only [Bool.false_eq_true, if_false, Nat.add_zero]
  rfl

/-! ## Readback of the serialized stream -/

theorem compressBuf_eq (ctile : List Nat → List Nat) (level flags : Nat)
    (input : List Nat) (outCap : Nat) (outBuf : Nat → Nat)
    (h1 : 0 < input.length) (h2 : input.length ≤ kDefaultTileSize * kMaxTiles)
    (h32 : sumLens (compressedTiles ctile input) < 2 ^ 32)
    (hcap : streamSizeOf ctile input ≤ outCap) :
    DoCompress ctile level flags input outCap outBuf =
      some (compressBuf ctile input outBuf, streamSizeOf ctile input) :=
  DoCompress_run ctile level flags input outCap outBuf h1 h2 h32 hcap

theorem streamSizeOf_eq (ctile : List Nat → List Nat) (input : List Nat) :
    streamSizeOf ctile input =
      8 + 4 * numTilesOf input.length + sumLens (compressedTiles ctile input) := rfl

theorem compressBuf_header (ctile : List Nat → List Nat) (input : List Nat)
    (outBuf : Nat → Nat) (j : Nat) (hj : j < 8) :
    compressBuf ctile input outBuf j = (TileStream.encode input.length).bytes.getD j 0 := by
  rw [compressBuf, writeSeq_lt _ _ _ _ (by omega), writeBytes_lt _ _ _ _ (by omega),
    writeBytes_getD _ _ _ _ (by omega) (by rw [bytes_length]; omega)]
  rw [Nat.sub_zero]

theorem compressBuf_index (ctile : List Nat → List Nat) (input : List Nat)
    (outBuf : Nat → Nat) (j : Nat) (hj1 : 8 ≤ j)
    (hj2 : j < 8 + 4 * numTilesOf input.length) :
    compressBuf ctile input outBuf j =
      (((buildTilePtrs ((compressedTiles ctile input).map List.length)).map
        u32le).flatten).getD (j - 8) 0 := by
  rw [compressBuf, writeSeq_lt _ _ _ _ (by omega),
    writeBytes_getD _ _ _ _ hj1
      (by rw [u32le_flatten_length, buildTilePtrs_length, List.length_map,
            compressedTiles_length]
          omega)]

theorem compressBuf_payload (ctile : List Nat → List Nat) (input : List Nat)
    (outBuf : Nat → Nat) (j : Nat) (hj1 : 8 + 4 * numTilesOf input.length ≤ j)
    (hj2 : j < streamSizeOf ctile input) :
    compressBuf ctile input outBuf j =
      (compressedTiles ctile input).flatten.getD
        (j - (8 + 4 * numTilesOf input.length)) 0 := by
  rw [streamSizeOf_eq] at hj2
  rw [compressBuf, writeSeq_getD _ _ _ _ hj1 (by omega)]

theorem compressStream_length (ctile : List Nat → List Nat) (input : List Nat)
    (outBuf : Nat → Nat) :
    (compressStream ctile input outBuf).length = streamSizeOf ctile input := by
  simp [compressStream]

theorem compressStream_getD (ctile : List Nat → List Nat) (input : List Nat)
    (outBuf : Nat → Nat) (p : Nat) (hp : p < streamSizeOf ctile input) :
    (compressStream ctile input outBuf).getD p 0 = compressBuf ctile input outBuf p := by
  unfold compressStream
  exact getD_range_map _ hp

theorem readTileStream_congr (b c : List Nat)
    (h : ∀ k, k < 8 → b.getD k 0 = c.getD k 0) :
    readTileStream b = readTileStream c := by
  simp only [readTileStream, readU32, Nat.reduceAdd]
  rw [h 0 (by omega), h 1 (by omega), h 2 (by omega), h 3 (by omega), h 4 (by omega),
    h 5 (by omega), h 6 (by omega), h 7 (by omega)]

theorem readTileStream_compressStream (ctile : List Nat → List Nat)
    (input : List Nat) (outBuf : Nat → Nat) :
    readTileStream (compressStream ctile input outBuf) =
      TileStream.encode input.length := by
  have h8 : 8 ≤ streamSizeOf ctile input := by
    rw [streamSizeOf_eq]
    omega
  refine (readTileStream_congr _ (TileStream.encode input.length).bytes ?_).trans
    (readTileStream_bytes _ (by rw [encode_id]; omega) (by rw [encode_magic]; omega)
      (encode_numTiles_lt _) (by rw [encode_tileSizeIdx]; omega)
      (encode_lastTileSize_lt _) (by rw [encode_reserved1]; omega))
  intro k hk
  rw [compressStream_getD _ _ _ _ (by omega), compressBuf_header _ _ _ _ hk]

theorem readU32_flatten (b : List Nat) (pos : Nat) (P : List Nat) (i : Nat)
    (hi : i < P.length)
    (hb : ∀ k, k < 4 → b.getD (pos + k) 0 = ((P.map u32le).flatten).getD (4 * i + k) 0) :
    readU32 b pos = P.getD i 0 % 2 ^ 32 := by
  have g : ∀ k, k < 4 →
      ((P.map u32le).flatten).getD (4 * i + k) 0 = (u32le (P.getD i 0)).getD k 0 :=
    fun k hk => u32le_flatten_getD P i k hi hk
  have h0 := (hb 0 (by omega)).trans (g 0 (by omega))
  have h1 := (hb 1 (by omega)).trans (g 1 (by omega))
  have h2 := (hb 2 (by omega)).trans (g 2 (by omega))
  have h3 := (hb 3 (by omega)).trans (g 3 (by omega))
  rw [Nat.add_zero] at h0
  unfold readU32
  rw [h0, h1, h2, h3]
  show (P.getD i 0) % 256 + 256 * (P.getD i 0 / 256 % 256) +
      2 ^ 16 * (P.getD i 0 / 2 ^ 16 % 256) + 2 ^ 24 * (P.getD i 0 / 2 ^ 24 % 256) =
    P.getD i 0 % 2 ^ 32
  omega

theorem compressStream_tileOffsets (ctile : List Nat → List Nat) (input : List Nat)
    (outBuf : Nat → Nat) (i : Nat) (hi : i < numTilesOf input.length) :
    tileOffsetsOf (compressStream ctile input outBuf) i =
      (buildTilePtrs ((compressedTiles ctile input).map List.length)).getD i 0 := by
  have hPlen : (buildTilePtrs ((compressedTiles ctile input).map List.length)).length =
      numTilesOf input.length := by
    rw [buildTilePtrs_length, List.length_map, compressedTiles_length]
  rw [tileOffsetsOf,
    readU32_flatten _ _ (buildTilePtrs ((compressedTiles ctile input).map List.length)) i
      (by omega) ?_,
    Nat.mod_eq_of_lt (buildTilePtrs_getD_lt _ _)]
  intro k hk
  have hlt : 8 + 4 * i + k < streamSizeOf ctile input := by
    rw [streamSizeOf_eq]
    omega
  rw [compressStream_getD _ _ _ _ hlt, compressBuf_index _ _ _ _ (by omega) (by omega)]
  congr 1
  omega

theorem sumLens_take_succ (ts : List (List Nat)) (i : Nat) (hi : i < ts.length) :
    sumLens (ts.take (i + 1)) = sumLens (ts.take i) + (ts.getD i []).length := by
  rw [sumLens, List.map_take, List.sum_take_succ _ _ (by simpa using hi),
    ← List.map_take]
  rw [show (((ts.take i).map List.length)).sum = sumLens (ts.take i) from rfl]
  congr 1
  rw [List.getElem_map, ← List.getD_eq_getElem _ ([] : List Nat) hi]

theorem sizes_getD (ctile : List Nat → List Nat) (input : List Nat) (i : Nat)
    (hi : i < numTilesOf input.length) :
    ((compressedTiles ctile input).map List.length).getD i 0 =
      ((compressedTiles ctile input).getD i []).length := by
  have hts : i < (compressedTiles ctile input).length := by
    rw [compressedTiles_length]
    omega
  rw [List.getD_eq_getElem _ _ (by simpa using hts), List.getElem_map,
    ← List.getD_eq_getElem _ ([] : List Nat) hts]

theorem sizes_take_sum (ctile : List Nat → List Nat) (input : List Nat) (j : Nat) :
    ((((compressedTiles ctile input).map List.length)).take j).sum =
      sumLens ((compressedTiles ctile input).take j) := by
  rw [← List.map_take]
  rfl

theorem tileLen_le_sum (ctile : List Nat → List Nat) (input : List Nat) (i : Nat)
    (hi : i < numTilesOf input.length) :
    ((compressedTiles ctile input).getD i []).length ≤
      sumLens (compressedTiles ctile input) := by
  have hts : i < (compressedTiles ctile input).length := by
    rw [compressedTiles_length]
    omega
  have h1 : sumLens ((compressedTiles ctile input).take (i + 1)) ≤
      sumLens (compressedTiles ctile input) := sumLens_take_le _ _
  rw [sumLens_take_succ _ _ hts] at h1
  omega

theorem compressStream_tileSpan (ctile : List Nat → List Nat) (input : List Nat)
    (outBuf : Nat → Nat) (h1 : 0 < input.length)
    (h32 : sumLens (compressedTiles ctile input) < 2 ^ 32) (i : Nat)
    (hi : i < numTilesOf input.length) :
    tileSpan (tileOffsetsOf (compressStream ctile input outBuf)) i
        (numTilesOf input.length) =
      (sumLens ((compressedTiles ctile input).take i),
        ((compressedTiles ctile input).getD i []).length) := by
  have hNpos := numTilesOf_pos _ h1
  have htslen : (compressedTiles ctile input).length = numTilesOf input.length :=
    compressedTiles_length _ _
  have hslen : (((compressedTiles ctile input).map List.length)).length =
      numTilesOf input.length := by
    rw [List.length_map, htslen]
  have hsne : ((compressedTiles ctile input).map List.length) ≠ [] := by
    intro h
    rw [h] at hslen
    simp at hslen
    omega
  have hsum : (((compressedTiles ctile input).map List.length)).sum =
      sumLens (compressedTiles ctile input) := rfl
  have hPzero : (buildTilePtrs ((compressedTiles ctile input).map List.length)).getD 0 0 =
      ((compressedTiles ctile input).getD (numTilesOf input.length - 1) []).length := by
    rw [buildTilePtrs_getD_zero _ hsne, getLastD_eq_getD _ hsne, hslen,
      sizes_getD _ _ _ (by omega)]
    have := tileLen_le_sum ctile input (numTilesOf input.length - 1) (by omega)
    omega
  have hPpos : ∀ j, 1 ≤ j → j < numTilesOf input.length →
      (buildTilePtrs ((compressedTiles ctile input).map List.length)).getD j 0 =
        sumLens ((compressedTiles ctile input).take j) := by
    intro j hj1 hj2
    rw [buildTilePtrs_getD_pos _ _ hj1 (by omega), sizes_take_sum]
    have h1' : sumLens ((compressedTiles ctile input).take j) ≤
        sumLens (compressedTiles ctile input) := sumLens_take_le _ _
    omega
  have hstep : ∀ j, j < numTilesOf input.length →
      sumLens ((compressedTiles ctile input).take (j + 1)) =
        sumLens ((compressedTiles ctile input).take j) +
          ((compressedTiles ctile input).getD j []).length := by
    intro j hj
    exact sumLens_take_succ _ _ (by omega)
  unfold tileSpan
  dsimp only
  rcases Nat.eq_zero_or_pos i with hi0 | hi0
  · subst hi0
    rw [if_neg (by omega), List.take_zero, sumLens_nil]
    by_cases hlast : 0 < numTilesOf input.length - 1
    · rw [if_pos hlast, compressStream_tileOffsets _ _ _ _ (by omega),
        hPpos 1 (by omega) (by omega), hstep 0 (by omega), List.take_zero, sumLens_nil]
      have := tileLen_le_sum ctile input 0 (by omega)
      refine Prod.ext rfl ?_
      dsimp only
      omega
    · rw [if_neg (by omega), compressStream_tileOffsets _ _ _ _ (by omega), hPzero]
      have : numTilesOf input.length - 1 = 0 := by omega
      rw [this]
  · rw [if_pos (by omega), compressStream_tileOffsets _ _ _ _ (by omega),
      hPpos i (by omega) (by omega)]
    by_cases hlast : i < numTilesOf input.length - 1
    · rw [if_pos hlast, compressStream_tileOffsets _ _ _ _ (by omega),
        hPpos (i + 1) (by omega) (by omega), hstep i (by omega)]
      have ha : sumLens ((compressedTiles ctile input).take i) ≤
          sumLens (compressedTiles ctile input) := sumLens_take_le _ _
      have hb := tileLen_le_sum ctile input i (by omega)
      refine Prod.ext rfl ?_
      dsimp only
      omega
    · rw [if_neg (by omega), compressStream_tileOffsets _ _ _ _ (by omega), hPzero]
      have : numTilesOf input.length - 1 = i := by omega
      rw [this]

theorem compressStream_page (ctile : List Nat → List Nat) (input : List Nat)
    (outBuf : Nat → Nat) (i : Nat) (hi : i < numTilesOf input.length) :
    ((compressStream ctile input outBuf).drop
        (8 + 4 * numTilesOf input.length +
          sumLens ((compressedTiles ctile input).take i))).take
        ((compressedTiles ctile input).getD i []).length =
      (compressedTiles ctile input).getD i [] := by
  have htslen := compressedTiles_length ctile input
  have hts : i < (compressedTiles ctile input).length := by omega
  have hstep := sumLens_take_succ (compressedTiles ctile input) i hts
  have htake : sumLens ((compressedTiles ctile input).take (i + 1)) ≤
      sumLens (compressedTiles ctile input) := sumLens_take_le _ _
  rw [compressStream, range_map_slice _ _ _ _ (by rw [streamSizeOf_eq]; omega)]
  rw [List.map_congr_left (g := fun k => ((compressedTiles ctile input).getD i []).getD k 0)
    ?_]
  · exact range_map_getD _
  · intro k hk
    have hk' : k < ((compressedTiles ctile input).getD i []).length := by
      simpa using hk
    rw [compressBuf_payload _ _ _ _ (by omega) (by rw [streamSizeOf_eq]; omega)]
    rw [show 8 + 4 * numTilesOf input.length +
          sumLens ((compressedTiles ctile input).take i) + k -
          (8 + 4 * numTilesOf input.length) =
        sumLens ((compressedTiles ctile input).take i) + k from by omega]
    exact flatten_getD _ _ _ hts hk'

/-! ## Tile slice lemmas -/

theorem numTilesOf_eq_zero (n : Nat) (h : numTilesOf n = 0) : n = 0 := by
  simp only [numTilesOf, kDefaultTileSize_eq] at h
  omega

theorem tileAt_zero (input : List Nat) : tileAt input 0 = input.take kDefaultTileSize := by
  rw [tileAt, Nat.zero_mul, List.drop_zero]

theorem tileAt_succ (input : List Nat) (j : Nat) :
    tileAt input (j + 1) = tileAt (input.drop kDefaultTileSize) j := by
  rw [tileAt, tileAt, List.drop_drop]
  congr 2
  ring

theorem tileAt_length (input : List Nat) (i : Nat) :
    (tileAt input i).length = min kDefaultTileSize (input.length - i * kDefaultTileSize) := by
  rw [tileAt, List.length_take, List.length_drop]

theorem inputSlices_flatten_aux :
    ∀ (N : Nat) (input : List Nat), numTilesOf input.length = N →
      ((List.range N).map (tileAt input)).flatten = input := by
  intro N
  induction N with
  | zero =>
    intro input hN
    have h0 : input.length = 0 := numTilesOf_eq_zero _ hN
    rw [List.eq_nil_of_length_eq_zero h0]
    rfl
  | succ N ih =>
    intro input hN
    rw [List.range_succ_eq_map, List.map_cons, List.map_map, List.flatten_cons]
    rw [List.map_congr_left
      (g := tileAt (input.drop kDefaultTileSize))
      (fun j _ => by
        rw [Function.comp_apply]
        exact tileAt_succ input j)]
    have hlen : (input.drop kDefaultTileSize).length = input.length - kDefaultTileSize :=
      List.length_drop _ _
    have hN' : numTilesOf (input.drop kDefaultTileSize).length = N := by
      rw [hlen]
      simp only [numTilesOf, kDefaultTileSize_eq] at hN ⊢
      omega
    rw [ih _ hN', tileAt_zero, List.take_append_drop]

theorem inputSlices_flatten (input : List Nat) :
    (inputSlices input).flatten = input :=
  inputSlices_flatten_aux _ input rfl

theorem inputSlices_length (input : List Nat) :
    (inputSlices input).length = numTilesOf input.length := by
  simp [inputSlices]

theorem sumLens_inputSlices (input : List Nat) :
    sumLens (inputSlices input) = input.length := by
  rw [← flatten_length, inputSlices_flatten]

theorem inputSlices_getD (input : List Nat) (i : Nat)
    (hi : i < numTilesOf input.length) :
    (inputSlices input).getD i [] = tileAt input i := by
  rw [inputSlices, List.getD_eq_getElem _ _ (by simpa using hi)]
  simp

theorem inputSlices_take_sum (input : List Nat) (i : Nat)
    (hi : i < numTilesOf input.length) :
    sumLens ((inputSlices input).take i) = i * kDefaultTileSize := by
  induction i with
  | zero => rw [List.take_zero, sumLens_nil, Nat.zero_mul]
  | succ i ih =>
    rw [sumLens_take_succ _ _ (by rw [inputSlices_length]; omega),
      ih (by omega), inputSlices_getD _ _ (by omega), tileAt_length]
    have : min kDefaultTileSize (input.length - i * kDefaultTileSize) =
        kDefaultTileSize := by
      simp only [numTilesOf, kDefaultTileSize_eq] at hi ⊢
      omega
    rw [this]
    ring

theorem take_succ_getD (l : List (List Nat)) (i : Nat) (hi : i < l.length) :
    l.take (i + 1) = l.take i ++ [l.getD i []] := by
  rw [List.take_succ, List.getElem?_eq_getElem hi,
    List.getD_eq_getElem _ _ hi]
  rfl

/-! ## Decompression of a produced stream -/

theorem decompressTiles_compressStream (ctile : List Nat → List Nat)
    (dtile : List Nat → Nat → Option (List Nat)) (input : List Nat)
    (outBuf out0 : Nat → Nat) (h1 : 0 < input.length)
    (h32 : sumLens (compressedTiles ctile input) < 2 ^ 32)
    (hinv : ∀ i, i < numTilesOf input.length →
      dtile (ctile (tileAt input i)) kDefaultTileSize = some (tileAt input i)) :
    decompressTiles dtile (compressStream ctile input outBuf)
        (numTilesOf input.length) out0 =
      writeSeq out0 0 (inputSlices input) := by
  have main : ∀ k, k ≤ numTilesOf input.length →
      (List.range k).foldl
        (fun out i =>
          let sp := tileSpan (tileOffsetsOf (compressStream ctile input outBuf)) i
            (numTilesOf input.length)
          let page := ((compressStream ctile input outBuf).drop
            (8 + 4 * numTilesOf input.length + sp.1)).take sp.2
          match dtile page kDefaultTileSize with
          | some bytes => writeBytes out (i * kDefaultTileSize) bytes
          | none => out)
        out0 =
      writeSeq out0 0 ((inputSlices input).take k) := by
    intro k
    induction k with
    | zero => intro _; rfl
    | succ k ih =>
      intro hk
      rw [List.range_succ, List.foldl_append, List.foldl_cons, List.foldl_nil,
        ih (by omega)]
      dsimp only
      rw [compressStream_tileSpan _ _ _ h1 h32 _ (by omega)]
      dsimp only
      rw [compressStream_page _ _ _ _ (by omega)]
      rw [compressedTiles_getD _ _ _ (by omega), hinv _ (by omega)]
      rw [take_succ_getD _ _ (by rw [inputSlices_length]; omega), writeSeq_append,
        inputSlices_getD _ _ (by omega), Nat.zero_add,
        inputSlices_take_sum _ _ (by omega)]
  have hfin := main _ (Nat.le_refl (numTilesOf input.length))
  have htk : (inputSlices input).take (numTilesOf input.length) = inputSlices input := by
    rw [← inputSlices_length input]
    exact List.take_length _
  rw [htk] at hfin
  exact hfin

theorem writeSeq_readback (ts : List (List Nat)) (out0 : Nat → Nat) :
    (List.range (sumLens ts)).map (writeSeq out0 0 ts) = ts.flatten := by
  apply List.ext_getElem
  · rw [List.length_map, List.length_range, flatten_length]
  · intro j hj1 hj2
    rw [List.getElem_map, List.getElem_range]
    have hj : j < sumLens ts := by simpa using hj1
    rw [writeSeq_getD _ _ _ _ (by omega) (by omega), Nat.sub_zero,
      List.getD_eq_getElem _ _ hj2]

theorem Decompress_run (dtile : List Nat → Nat → Option (List Nat))
    (out0 : Nat → Nat) (outputSize : Nat) (input : List Nat) (numWorkers : Nat)
    (ho : outputSize ≠ 0) (hne : input.length ≠ 0)
    (hv : ValidateStream (readTileStream input) = true) :
    Decompress dtile out0 outputSize input numWorkers =
      some (decompressTiles dtile input (readTileStream input).numTiles out0) := by
  unfold Decompress
  rw [if_neg (by simp [ho, hne])]
  dsimp only
  rw [hv, if_neg (by simp)]

theorem round_trip_core (ctile : List Nat → List Nat)
    (dtile : List Nat → Nat → Option (List Nat)) (input : List Nat)
    (outBuf out0 : Nat → Nat) (numWorkers : Nat) (h1 : 0 < input.length)
    (h2 : input.length ≤ kDefaultTileSize * kMaxTiles)
    (h32 : sumLens (compressedTiles ctile input) < 2 ^ 32)
    (hinv : ∀ t : List Nat, 0 < t.length → t.length ≤ kDefaultTileSize →
      dtile (ctile t) kDefaultTileSize = some t) :
    Decompress dtile out0 input.length (compressStream ctile input outBuf)
        numWorkers = some (writeSeq out0 0 (inputSlices input)) ∧
      (List.range input.length).map (writeSeq out0 0 (inputSlices input)) = input := by
  have htile : ∀ i, i < numTilesOf input.length →
      dtile (ctile (tileAt input i)) kDefaultTileSize = some (tileAt input i) := by
    intro i hi
    have hlen := tileAt_length input i
    rw [kDefaultTileSize_eq] at hlen
    simp only [numTilesOf, kDefaultTileSize_eq] at hi
    refine hinv _ ?_ ?_
    · rw [hlen]
      omega
    · rw [hlen, kDefaultTileSize_eq]
      omega
  constructor
  · rw [Decompress_run _ _ _ _ _ (by omega)
      (by rw [compressStream_length, streamSizeOf_eq]; omega)
      (by rw [readTileStream_compressStream, ValidateStream_encode]),
      readTileStream_compressStream, encode_numTiles _ h1 h2,
      decompressTiles_compressStream _ _ _ _ _ h1 h32 htile]
  · have := writeSeq_readback (inputSlices input) out0
    rw [sumLens_inputSlices, inputSlices_flatten] at this
    exact this

/-! ## Index readback lemmas -/

theorem compressStream_index_zero (ctile : List Nat → List Nat) (input : List Nat)
    (outBuf : Nat → Nat) (h1 : 0 < input.length)
    (h32 : sumLens (compressedTiles ctile input) < 2 ^ 32) :
    tileOffsetsOf (compressStream ctile input outBuf) 0 =
      ((compressedTiles ctile input).getD (numTilesOf input.length - 1) []).length := by
  have hNpos := numTilesOf_pos _ h1
  have hslen : (((compressedTiles ctile input).map List.length)).length =
      numTilesOf input.length := by
    rw [List.length_map, compressedTiles_length]
  have hsne : ((compressedTiles ctile input).map List.length) ≠ [] := by
    intro h
    rw [h] at hslen
    simp at hslen
    omega
  rw [compressStream_tileOffsets _ _ _ _ (by omega), buildTilePtrs_getD_zero _ hsne,
    getLastD_eq_getD _ hsne, hslen, sizes_getD _ _ _ (by omega)]
  have := tileLen_le_sum ctile input (numTilesOf input.length - 1) (by omega)
  omega

theorem compressStream_index_pos (ctile : List Nat → List Nat) (input : List Nat)
    (outBuf : Nat → Nat) (j : Nat) (hj1 : 1 ≤ j) (hj2 : j < numTilesOf input.length)
    (h32 : sumLens (compressedTiles ctile input) < 2 ^ 32) :
    tileOffsetsOf (compressStream ctile input outBuf) j =
      sumLens ((compressedTiles ctile input).take j) := by
  have hslen : (((compressedTiles ctile input).map List.length)).length =
      numTilesOf input.length := by
    rw [List.length_map, compressedTiles_length]
  rw [compressStream_tileOffsets _ _ _ _ (by omega),
    buildTilePtrs_getD_pos _ _ hj1 (by omega), sizes_take_sum]
  have h1' : sumLens ((compressedTiles ctile input).take j) ≤
      sumLens (compressedTiles ctile input) := sumLens_take_le _ _
  omega

theorem readU32Fun_compressBuf (ctile : List Nat → List Nat) (input : List Nat)
    (outBuf : Nat → Nat) (i : Nat) (hi : i < numTilesOf input.length) :
    readU32Fun (compressBuf ctile input outBuf) (8 + 4 * i) =
      tileOffsetsOf (compressStream ctile input outBuf) i := by
  unfold readU32Fun tileOffsetsOf readU32
  rw [compressStream_getD ctile input outBuf (8 + 4 * i) (by rw [streamSizeOf_eq]; omega),
    compressStream_getD ctile input outBuf (8 + 4 * i + 1) (by rw [streamSizeOf_eq]; omega),
    compressStream_getD ctile input outBuf (8 + 4 * i + 2) (by rw [streamSizeOf_eq]; omega),
    compressStream_getD ctile input outBuf (8 + 4 * i + 3) (by rw [streamSizeOf_eq]; omega)]

theorem compressBuf_tilePayload (ctile : List Nat → List Nat) (input : List Nat)
    (outBuf : Nat → Nat) (i : Nat) (hi : i < numTilesOf input.length) :
    (List.range ((compressedTiles ctile input).getD i []).length).map
      (fun k => compressBuf ctile input outBuf
        (8 + 4 * numTilesOf input.length +
          sumLens ((compressedTiles ctile input).take i) + k)) =
      (compressedTiles ctile input).getD i [] := by
  have hts : i < (compressedTiles ctile input).length := by
    rw [compressedTiles_length]
    omega
  have hstep := sumLens_take_succ (compressedTiles ctile input) i hts
  have htake : sumLens ((compressedTiles ctile input).take (i + 1)) ≤
      sumLens (compressedTiles ctile input) := sumLens_take_le _ _
  have h := compressStream_page ctile input outBuf i hi
  rw [compressStream, range_map_slice _ _ _ _ (by rw [streamSizeOf_eq]; omega)] at h
  exact h

/-! ## Writes never touch bytes below the current cursor -/

theorem StreamOut_size (s : OutputStreamWrapper) (d : List Nat) :
    (s.StreamOut d).size = s.size := by
  unfold OutputStreamWrapper.StreamOut
  split <;> rfl

theorem StreamOut_pos_le (s : OutputStreamWrapper) (d : List Nat) :
    s.pos ≤ (s.StreamOut d).pos := by
  unfold OutputStreamWrapper.StreamOut
  split
  · exact Nat.le_refl _
  · exact Nat.le_add_right _ _

theorem StreamOut_buf_below (s : OutputStreamWrapper) (d : List Nat) (j : Nat)
    (hj : j < s.pos) : (s.StreamOut d).buf j = s.buf j := by
  unfold OutputStreamWrapper.StreamOut
  split
  · rfl
  · exact writeBytes_lt _ _ _ _ hj

theorem SetPos_buf (s : OutputStreamWrapper) (n : Nat) : (s.SetPos n).buf = s.buf := by
  unfold OutputStreamWrapper.SetPos
  split <;> rfl

theorem SetPos_pos_ge (s : OutputStreamWrapper) (n p : Nat) (hs : p ≤ s.pos)
    (hn : p ≤ n) : p ≤ (s.SetPos n).pos := by
  unfold OutputStreamWrapper.SetPos
  split
  · exact hs
  · exact hn

theorem writeTileList_buf_below (items : List (Nat × List Nat))
    (s : OutputStreamWrapper) (d p : Nat) (hs : p ≤ s.pos) (hd : p ≤ d) :
    p ≤ (writeTileList s d items).pos ∧
      ∀ j, j < p → (writeTileList s d items).buf j = s.buf j := by
  induction items generalizing s with
  | nil => exact ⟨hs, fun _ _ => rfl⟩
  | cons it items ih =>
    rw [writeTileList_cons]
    have hp1 : p ≤ ((s.SetPos (d + it.1)).StreamOut it.2).pos :=
      Nat.le_trans (SetPos_pos_ge s _ p hs (by omega)) (StreamOut_pos_le _ _)
    obtain ⟨ha, hb⟩ := ih _ hp1
    refine ⟨ha, fun j hj => ?_⟩
    rw [hb j hj, StreamOut_buf_below _ _ _
        (Nat.lt_of_lt_of_le hj (SetPos_pos_ge s _ p hs (by omega))),
      SetPos_buf]

/-! ## Claim theorems -/

/-- C1: Round-trip.  For every byte string `S` with
`0 < |S| ≤ kMaxTiles * kDefaultTileSize` and every compression level
`L ∈ [1,12]`, assuming the external single-tile primitive inverts its own
compression (`hinv`) — and, as its interface requires, that the serialized
stream fits the caller's output buffer (`hcap`) with a total payload
addressable by the 32-bit index (`h32`) — `Decompress` applied to the stream
produced by `Compress(S, L)`, with an output buffer of exactly `|S|` bytes
and any worker count in `[1, kMaxWorkers]`, returns success and writes back
exactly `S`. -/
theorem C1_round_trip (cfam : Nat → List Nat → List Nat)
    (dtile : List Nat → Nat → Option (List Nat)) (level flags numWorkers : Nat)
    (input : List Nat) (outCap : Nat) (outBuf out0 : Nat → Nat)
    (hlen1 : 0 < input.length)
    (hlen2 : input.length ≤ kDefaultTileSize * kMaxTiles)
    (hlevel : 1 ≤ level ∧ level ≤ 12)
    (hworkers : 1 ≤ numWorkers ∧ numWorkers ≤ kMaxWorkers)
    (hinv : ∀ t : List Nat, 0 < t.length → t.length ≤ kDefaultTileSize →
      dtile (cfam level t) kDefaultTileSize = some t)
    (h32 : sumLens (compressedTiles (cfam level) input) < 2 ^ 32)
    (hcap : streamSizeOf (cfam level) input ≤ outCap) :
    ∃ g : Nat → Nat,
      Compress (cfam level) level flags input outCap outBuf =
        some (compressBuf (cfam level) input outBuf, streamSizeOf (cfam level) input) ∧
      Decompress dtile out0 input.length
        (compressStream (cfam level) input outBuf) numWorkers = some g ∧
      (List.range input.length).map g = input := by
  obtain ⟨hd, hr⟩ := round_trip_core (cfam level) dtile input outBuf out0 numWorkers
    hlen1 hlen2 h32 hinv
  exact ⟨writeSeq out0 0 (inputSlices input),
    compressBuf_eq _ level flags input outCap outBuf hlen1 hlen2 h32 hcap, hd, hr⟩

/-- Witness for C1: the one-byte input `[0x41]` with the identity tile
primitive, level 1, a 13-byte output buffer and one worker. -/
theorem C1_round_trip_witness :
    0 < ([65] : List Nat).length ∧
    ∃ g : Nat → Nat,
      Compress idTile 1 0 [65] 13 (fun _ => 0) =
        some (compressBuf idTile [65] (fun _ => 0), streamSizeOf idTile [65]) ∧
      Decompress copyTile (fun _ => 0) ([65] : List Nat).length
        (compressStream idTile [65] (fun _ => 0)) 1 = some g ∧
      (List.range ([65] : List Nat).length).map g = [65] :=
  ⟨by decide,
    C1_round_trip (fun _ => idTile) copyTile 1 0 1 [65] 13 (fun _ => 0) (fun _ => 0)
      (by decide) (by decide) (by decide) (by decide)
      (fun t _ ht2 => if_pos ht2) (by decide) (by decide)⟩

/-- C2: the claim says a `Compress` call whose serialization would write
past the end of the output buffer returns `false` (`OutputTooSmall`).  The
code instead prints a "Fatal: stream overrun!" diagnostic inside
`OutputStreamWrapper`, silently skips the writes, and still returns `true`:
compressing the 1-byte input `[0x41]` into a 0-byte buffer — where writing
the 8-byte header, the 4-byte index and the 1-byte payload (13 bytes needed
in total) all overrun — succeeds with `*outputSize = 0`. -/
theorem C2_overrun_still_returns_true :
    (DoCompress idTile 1 0 [65] 0 (fun _ => 0)).isSome = true ∧
    (DoCompress idTile 1 0 [65] 0 (fun _ => 0)).map Prod.snd = some 0 ∧
    streamSizeOf idTile [65] = 13 := by
  decide

/-- C3: the claim says a header that passes the magic check with
`id = kGDeflateId` but `tileSizeIdx ≠ 1` is rejected by `Decompress`.  The
code's `ValidateStream` checks only `IsValid()` (the magic) and the id;
`tileSizeIdx` is never read: the stream `c3stream` with `tileSizeIdx = 2`
is accepted and decompression proceeds to success. -/
theorem C3_tileSizeIdx_never_checked :
    (readTileStream c3stream).id = kGDeflateId ∧
    (readTileStream c3stream).IsValid = true ∧
    (readTileStream c3stream).tileSizeIdx = 2 ∧
    ValidateStream (readTileStream c3stream) = true ∧
    (Decompress copyTile (fun _ => 0) 1 c3stream 1).isSome = true := by
  decide

/-- C4: the claim says the decoder checks, before reading any tile, that
every tile's compressed span lies inside the input
(`offset + length ≤ inSize - (8 + 4 * numTiles)`).  The code performs no
such check (`context.inputSize` is never read): for the 12-byte stream
`c4stream` whose single index word is `0xFFFFFFFF`, the computed span of
tile 0 is `(0, 4294967295)` — far outside the remaining 0 input bytes — yet
the span is handed to the tile primitive and `Decompress` returns success. -/
theorem C4_span_not_bounds_checked :
    ValidateStream (readTileStream c4stream) = true ∧
    (readTileStream c4stream).numTiles = 1 ∧
    tileSpan (tileOffsetsOf c4stream) 0 (readTileStream c4stream).numTiles =
      (0, 4294967295) ∧
    c4stream.length - (8 + 4 * (readTileStream c4stream).numTiles) < 0 + 4294967295 ∧
    (Decompress copyTile (fun _ => 0) 1 c4stream 1).isSome = true := by
  decide

theorem getD_lt_all (os : List Nat) (h : ∀ x ∈ os, x < 2 ^ 32) (k : Nat) :
    os.getD k 0 < 2 ^ 32 := by
  by_cases hk : k < os.length
  · rw [List.getD_eq_getElem _ _ hk]
    exact h _ (List.getElem_mem hk)
  · rw [List.getD_eq_default _ _ (by omega)]
    omega

/-- C5 counterexample: for `numTiles = 1` the claim locates the single tile
at `(offsets[numTiles-1], offsets[0]) = (offsets[0], offsets[0])`, but the
code locates it at offset `0` (with length `offsets[0]`): for the index
`[5]` the code yields `(0, 5)` and the claimed formula `(5, 5)`. -/
theorem C5_counterexample :
    tileSpan (fun j => [5].getD j 0) 0 1 ≠ tileSpanClaimed [5] 0 1 := by
  decide

/-- C5 (amended): for `numTiles ≥ 2` every tile's compressed span matches
the claimed `tile_span` formula (under the spec's own invariants that the
index words are `u32` values and non-decreasing from slot 1 on); for
`numTiles = 1` the single tile's span is `(0, offsets[0])` — its offset is
`0`, not `offsets[0]`. -/
theorem C5_tile_span_amended (offsets : List Nat) (numTiles : Nat)
    (hvals : ∀ x ∈ offsets, x < 2 ^ 32)
    (hmono : ∀ j, 1 ≤ j → j + 1 < numTiles →
      offsets.getD j 0 ≤ offsets.getD (j + 1) 0) :
    (∀ i, i < numTiles → 2 ≤ numTiles →
      tileSpan (fun j => offsets.getD j 0) i numTiles =
        tileSpanClaimed offsets i numTiles) ∧
    (∀ os : List Nat, tileSpan (fun j => os.getD j 0) 0 1 = (0, os.getD 0 0)) := by
  constructor
  · intro i hi hN2
    have hbound : ∀ k, offsets.getD k 0 < 2 ^ 32 := getD_lt_all offsets hvals
    unfold tileSpan tileSpanClaimed
    dsimp only
    by_cases hlast : i = numTiles - 1
    · rw [if_pos (by omega), if_neg (by omega), if_pos hlast, hlast]
    · by_cases h0 : i = 0
      · subst h0
        rw [if_neg (by omega), if_pos (by omega), if_neg hlast, if_pos rfl]
        refine Prod.ext rfl ?_
        dsimp only
        simp only [Nat.zero_add]
        have := hbound 1
        omega
      · rw [if_pos (by omega), if_pos (by omega), if_neg hlast, if_neg h0]
        refine Prod.ext rfl ?_
        dsimp only
        have h1 := hbound i
        have h2 := hbound (i + 1)
        have h3 := hmono i (by omega) (by omega)
        omega
  · intro os
    rfl

/-- Witness for C5 (amended) at the index `[9, 3, 7]` with three tiles. -/
theorem C5_tile_span_amended_witness :
    (∀ i, i < 3 → 2 ≤ 3 →
      tileSpan (fun j => [9, 3, 7].getD j 0) i 3 = tileSpanClaimed [9, 3, 7] i 3) ∧
    (∀ os : List Nat, tileSpan (fun j => os.getD j 0) 0 1 = (0, os.getD 0 0)) :=
  C5_tile_span_amended [9, 3, 7] 3 (by decide)
    (by
      intro j hj1 hj2
      have hj : j = 1 := by omega
      subst hj
      decide)

/-- C6: header size round-trip.  For `0 < n ≤ kDefaultTileSize * kMaxTiles`
the encoded header has `numTiles = ⌈n / kDefaultTileSize⌉` and
`lastTileSize = n % kDefaultTileSize`, and `GetUncompressedSize()` recovers
exactly `n`. -/
theorem C6_header_size_roundtrip (n : Nat) (h1 : 0 < n)
    (h2 : n ≤ kDefaultTileSize * kMaxTiles) :
    (TileStream.encode n).numTiles = (n + kDefaultTileSize - 1) / kDefaultTileSize ∧
    (TileStream.encode n).lastTileSize = n % kDefaultTileSize ∧
    (TileStream.encode n).GetUncompressedSize = n :=
  ⟨encode_numTiles n h1 h2, encode_lastTileSize n h2,
    encode_GetUncompressedSize n h1 h2⟩

/-- Witness for C6 at `n = 65537` (two tiles, `lastTileSize = 1`). -/
theorem C6_header_size_roundtrip_witness :
    0 < 65537 ∧
    ((TileStream.encode 65537).numTiles =
        (65537 + kDefaultTileSize - 1) / kDefaultTileSize ∧
      (TileStream.encode 65537).lastTileSize = 65537 % kDefaultTileSize ∧
      (TileStream.encode 65537).GetUncompressedSize = 65537) :=
  ⟨by decide, C6_header_size_roundtrip 65537 (by decide) (by decide)⟩

/-- C7: stream layout postcondition.  When `Compress` succeeds on an input
of `N = numTilesOf |S|` tiles with per-tile compressed sizes
`s_i = |ctile(tile_i)|` and the output buffer holds the stream, the bytes
written are the 8 header bytes, then `N` little-endian `u32` index entries
with entry 0 equal to `s_{N-1}` and entry `i ≥ 1` equal to
`s_0 + … + s_{i-1}`, then each tile `i`'s payload at byte offset
`(8 + 4N) + (s_0 + … + s_{i-1})` (i.e. `0` for tile 0, `index[i]`
otherwise); the value returned in `*outputSize` is `8 + 4N + Σ s_i`. -/
theorem C7_stream_layout (ctile : List Nat → List Nat) (level flags : Nat)
    (input : List Nat) (outCap : Nat) (outBuf : Nat → Nat)
    (h1 : 0 < input.length) (h2 : input.length ≤ kDefaultTileSize * kMaxTiles)
    (h32 : sumLens (compressedTiles ctile input) < 2 ^ 32)
    (hcap : streamSizeOf ctile input ≤ outCap) :
    DoCompress ctile level flags input outCap outBuf =
        some (compressBuf ctile input outBuf,
          8 + 4 * numTilesOf input.length + sumLens (compressedTiles ctile input)) ∧
      (∀ j, j < 8 →
        compressBuf ctile input outBuf j =
          (TileStream.encode input.length).bytes.getD j 0) ∧
      readU32Fun (compressBuf ctile input outBuf) (8 + 4 * 0) =
        ((compressedTiles ctile input).getD (numTilesOf input.length - 1) []).length ∧
      (∀ i, 1 ≤ i → i < numTilesOf input.length →
        readU32Fun (compressBuf ctile input outBuf) (8 + 4 * i) =
          sumLens ((compressedTiles ctile input).take i)) ∧
      (∀ i, i < numTilesOf input.length →
        (List.range ((compressedTiles ctile input).getD i []).length).map
          (fun k => compressBuf ctile input outBuf
            (8 + 4 * numTilesOf input.length +
              sumLens ((compressedTiles ctile input).take i) + k)) =
          ctile (tileAt input i)) := by
  have hNpos := numTilesOf_pos _ h1
  refine ⟨compressBuf_eq ctile level flags input outCap outBuf h1 h2 h32 hcap,
    fun j hj => compressBuf_header ctile input outBuf j hj, ?_, ?_, ?_⟩
  · rw [readU32Fun_compressBuf _ _ _ _ (by omega)]
    exact compressStream_index_zero ctile input outBuf h1 h32
  · intro i hi1 hi2
    rw [readU32Fun_compressBuf _ _ _ _ (by omega)]
    exact compressStream_index_pos ctile input outBuf i hi1 hi2 h32
  · intro i hi
    rw [compressBuf_tilePayload _ _ _ _ hi, compressedTiles_getD _ _ _ hi]

/-- Witness for C7: the one-byte input `[0x41]` with the identity tile
primitive and a 13-byte output buffer. -/
theorem C7_stream_layout_witness :
    0 < ([65] : List Nat).length ∧
    (DoCompress idTile 1 0 [65] 13 (fun _ => 0) =
        some (compressBuf idTile [65] (fun _ => 0),
          8 + 4 * numTilesOf ([65] : List Nat).length +
            sumLens (compressedTiles idTile [65])) ∧
      (∀ j, j < 8 →
        compressBuf idTile [65] (fun _ => 0) j =
          (TileStream.encode ([65] : List Nat).length).bytes.getD j 0) ∧
      readU32Fun (compressBuf idTile [65] (fun _ => 0)) (8 + 4 * 0) =
        ((compressedTiles idTile [65]).getD
          (numTilesOf ([65] : List Nat).length - 1) []).length ∧
      (∀ i, 1 ≤ i → i < numTilesOf ([65] : List Nat).length →
        readU32Fun (compressBuf idTile [65] (fun _ => 0)) (8 + 4 * i) =
          sumLens ((compressedTiles idTile [65]).take i)) ∧
      (∀ i, i < numTilesOf ([65] : List Nat).length →
        (List.range ((compressedTiles idTile [65]).getD i []).length).map
          (fun k => compressBuf idTile [65] (fun _ => 0)
            (8 + 4 * numTilesOf ([65] : List Nat).length +
              sumLens ((compressedTiles idTile [65]).take i) + k)) =
          idTile (tileAt [65] i))) :=
  ⟨by decide,
    C7_stream_layout idTile 1 0 [65] 13 (fun _ => 0) (by decide) (by decide)
      (by decide) (by decide)⟩

/-- C8: bit-exact header encoding: compressing the 65537-byte all-zero
input (with an output buffer sized by `CompressBound`) produces a stream
whose first 8 bytes are exactly `04 FB 02 00 05 00 00 00` — id 4, magic
`0xFB`, `numTiles = 2` little-endian, and the packed fourth word `0x05`
(`tileSizeIdx = 1` in bits 0..1, `lastTileSize = 1` in bits 2..19, zero
reserved bits) — whatever the external tile primitive produces. -/
theorem C8_header_bytes_65537 (ctile : List Nat → List Nat) (level flags : Nat)
    (outBuf : Nat → Nat) :
    (DoCompress ctile level flags (List.replicate 65537 0) (CompressBound 65537)
        outBuf).map (fun r => (List.range 8).map r.1) =
      some [4, 251, 2, 0, 5, 0, 0, 0] := by
  have hlen : (List.replicate 65537 (0 : Nat)).length = 65537 :=
    List.length_replicate 65537 0
  unfold DoCompress
  rw [if_neg (by rw [hlen]; decide), if_neg (by rw [hlen]; decide)]
  dsimp only
  rw [hlen]
  rw [show (65537 + kDefaultTileSize - 1) / kDefaultTileSize = 2 from by decide]
  rw [show (buildTilePtrs
        (((List.range 2).map fun i =>
            ctile (tileAt (List.replicate 65537 0) i)).map List.length)).length = 2
      from by rw [buildTilePtrs_length, List.length_map, List.length_map,
        List.length_range]]
  rw [show (if 65537 - (2 - 1) * kDefaultTileSize < kDefaultTileSize then
        2 * kDefaultTileSize -
          (kDefaultTileSize - (65537 - (2 - 1) * kDefaultTileSize))
      else 2 * kDefaultTileSize) = 65537 from by decide]
  have e1 : (OutputStreamWrapper.mk (CompressBound 65537) outBuf 0).StreamOut
      (TileStream.encode 65537).bytes =
      ⟨CompressBound 65537, writeBytes outBuf 0 (TileStream.encode 65537).bytes, 8⟩ := by
    simp only [OutputStreamWrapper.StreamOut, bytes_length, Nat.zero_add]
    rw [if_neg (by decide)]
  rw [e1]
  simp only [Option.map_some']
  refine congrArg some ?_
  dsimp only
  have h8 : (8 : Nat) ≤ ((OutputStreamWrapper.mk (CompressBound 65537)
      (writeBytes outBuf 0 (TileStream.encode 65537).bytes) 8).StreamOut
      (((buildTilePtrs (((List.range 2).map fun i =>
          ctile (tileAt (List.replicate 65537 0) i)).map List.length)).map
        u32le).flatten)).pos :=
    StreamOut_pos_le (OutputStreamWrapper.mk (CompressBound 65537)
      (writeBytes outBuf 0 (TileStream.encode 65537).bytes) 8) _
  rw [List.map_congr_left (g := fun j => (TileStream.encode 65537).bytes.getD j 0) ?_]
  · decide
  · intro j hj
    have hj8 : j < 8 := List.mem_range.mp hj
    rw [(writeTileList_buf_below _ _ _ 8 h8 h8).2 j hj8,
      StreamOut_buf_below _ _ _ hj8]
    dsimp only
    rw [writeBytes_getD _ _ _ _ (by omega) (by rw [bytes_length]; omega), Nat.sub_zero]

/-- C9: the claim (and the spec's §7) says per-tile decode failure must
surface as a `false` return of `Decompress`.  The code passes the tile
primitive's status nowhere (`libdeflate_gdeflate_decompress`'s result is
discarded): decompressing the well-formed stream `c9stream` with a
primitive that fails on every page still returns success, leaving the
output untouched. -/
theorem C9_tile_failure_ignored :
    ValidateStream (readTileStream c9stream) = true ∧
    Decompress failTile (fun _ => 0) 1 c9stream 1 = some (fun _ => 0) :=
  ⟨by decide, rfl⟩

/-- C10: `Decompress` consults its `outputSize` argument only in the
initial zero check — the result is otherwise independent of it (and of the
worker count); on any stream whose header validates, the tiles dispatched
are exactly tiles `0 … numTiles-1` of the header, written at offsets
`i * kDefaultTileSize` with capacity `kDefaultTileSize`, so whenever the
header claims more data than `outputSize` some dispatched tile extends past
`outputSize`. -/
theorem C10_outputSize_only_zero_checked
    (dtile : List Nat → Nat → Option (List Nat)) (out0 : Nat → Nat)
    (input : List Nat) (w1 w2 os1 os2 : Nat) (ho1 : os1 ≠ 0) (ho2 : os2 ≠ 0) :
    Decompress dtile out0 os1 input w1 = Decompress dtile out0 os2 input w2 ∧
    (ValidateStream (readTileStream input) = true → input.length ≠ 0 →
      Decompress dtile out0 os1 input w1 =
        some (decompressTiles dtile input (readTileStream input).numTiles out0) ∧
      ((readTileStream input).numTiles * kDefaultTileSize > os1 →
        ∃ i, i < (readTileStream input).numTiles ∧
          os1 < i * kDefaultTileSize + kDefaultTileSize)) := by
  constructor
  · by_cases hlen : input.length = 0
    · simp [Decompress, hlen]
    · simp [Decompress, ho1, ho2, hlen]
  · intro hv hlen
    refine ⟨Decompress_run dtile out0 os1 input w1 ho1 hlen hv, ?_⟩
    intro hgt
    rw [kDefaultTileSize_eq] at hgt ⊢
    exact ⟨(readTileStream input).numTiles - 1, by omega, by omega⟩

/-- Witness for C10: the valid one-tile stream `c9stream` with output sizes
1 and 2 and worker counts 1 and 5 (the header claims 65536 bytes, more than
either output size). -/
theorem C10_outputSize_only_zero_checked_witness :
    Decompress copyTile (fun _ => 0) 1 c9stream 1 =
        Decompress copyTile (fun _ => 0) 2 c9stream 5 ∧
    (ValidateStream (readTileStream c9stream) = true → c9stream.length ≠ 0 →
      Decompress copyTile (fun _ => 0) 1 c9stream 1 =
        some (decompressTiles copyTile c9stream
          (readTileStream c9stream).numTiles (fun _ => 0)) ∧
      ((readTileStream c9stream).numTiles * kDefaultTileSize > 1 →
        ∃ i, i < (readTileStream c9stream).numTiles ∧
          1 < i * kDefaultTileSize + kDefaultTileSize)) :=
  C10_outputSize_only_zero_checked copyTile (fun _ => 0) c9stream 1 5 1 2
    (by decide) (by decide)

end GDeflate
